import Mathlib

/-!
Verification of the firmware version resolution engine of notecard-mcp
(src/firmware.ts), shallowly embedded in Lean.

The network fetch in `findFirmwareUrl` / `listAvailableFirmwareVersions`
is I/O; the embedding takes the list of object keys already extracted
from the fetched XML (`extractKeysFromXml`'s output, the `allKeys`
variable of the source) as an explicit argument.  Everything after that
point in the source is pure and is translated function by function.
JavaScript strings are modelled as Lean `String`; the two string
primitives the source uses (`String.prototype.includes` and
`String.prototype.endsWith`) are modelled over the character list.
Thrown errors are modelled with `Except String`; `findFirmwareUrl`'s
`string | null` result becomes `Option String`.
-/

namespace Notecard

/-- Model of `String.prototype.includes`: `jsIncludes s sub` is true iff
`sub` occurs contiguously in `s` (case-sensitive, unanchored). -/
def hasSubstring : List Char → List Char → Bool
  | [], needle => needle.isEmpty
  | c :: t, needle => needle.isPrefixOf (c :: t) || hasSubstring t needle

/-- JavaScript `s.includes(sub)`. -/
def jsIncludes (s sub : String) : Bool :=
  hasSubstring s.toList sub.toList

/-- JavaScript `s.endsWith(sfx)`. -/
def jsEndsWith (s sfx : String) : Bool :=
  List.isSuffixOf sfx.toList s.toList

/-! ## compareVersions (firmware.ts lines 2-13) -/

/-- JavaScript `v.split('.')` on a dot-free separator: splits a character
list at every `'.'`; `"".split('.')` yields one empty component. -/
def splitOnDot : List Char → List (List Char)
  | [] => [[]]
  | c :: cs =>
    let r := splitOnDot cs
    if c = '.' then [] :: r
    else
      match r with
      | h :: t => (c :: h) :: t
      | [] => [[c]]

/-- Model of `Number(component) || 0` for one dot-separated component of a
version string: a string of decimal digits denotes its value, the empty
string denotes 0 (as `Number("")` does), and any component that is not a
plain digit string collapses to 0 (as `NaN || 0` does). -/
def parseNumCompChars (cs : List Char) : Nat :=
  if cs.all Char.isDigit then
    cs.foldl (fun n c => n * 10 + (c.toNat - Char.toNat '0')) 0
  else 0

/-- `v1.split('.').map(Number)` with the `|| 0` collapse applied. -/
def versionParts (v : String) : List Nat :=
  (splitOnDot v.toList).map parseNumCompChars

/-- The comparison loop of `compareVersions` once the left operand is
exhausted: each remaining right component is compared against 0. -/
def cmpZeros : List Nat → Int
  | [] => 0
  | q :: qs => if 0 > q then 1 else if 0 < q then -1 else cmpZeros qs

/-- The comparison loop of `compareVersions` (lines 6-12): components are
compared left to right up to the longer length, with the shorter operand
read as 0 (`parts[i] || 0`) past its end. -/
def compareParts : List Nat → List Nat → Int
  | [], qs => cmpZeros qs
  | p :: ps, [] => if p > 0 then 1 else if p < 0 then -1 else compareParts ps []
  | p :: ps, q :: qs => if p > q then 1 else if p < q then -1 else compareParts ps qs

/-- `compareVersions(v1, v2)` of firmware.ts. -/
def compareVersions (v1 v2 : String) : Int :=
  compareParts (versionParts v1) (versionParts v2)

/-! ## Version extraction (the regex `-(\d+\.\d+\.\d+\.\d+)\.(?:bin|dfu)`) -/

/-- Maximal run of decimal digits at the head of a character list, with
the remainder (the greedy `\d+` step of the regex). -/
def takeDigits : List Char → List Char × List Char
  | [] => ([], [])
  | c :: cs =>
    if c.isDigit then
      let r := takeDigits cs
      (c :: r.1, r.2)
    else ([], c :: cs)

/-- Attempt to match `(\d+\.\d+\.\d+\.\d+)\.(?:bin|dfu)` at the start of
`cs` (the position right after a literal `-`), returning the captured
group.  Because each `\d+` is followed by a mandatory literal dot, the
greedy maximal-run reading is the only possible one, so no backtracking
arises and this deterministic matcher agrees with the JS engine. -/
def matchVersionAt (cs : List Char) : Option (List Char) :=
  let s1 := takeDigits cs
  if s1.1.isEmpty then none else
  match s1.2 with
  | '.' :: r2 =>
    let s2 := takeDigits r2
    if s2.1.isEmpty then none else
    match s2.2 with
    | '.' :: r4 =>
      let s3 := takeDigits r4
      if s3.1.isEmpty then none else
      match s3.2 with
      | '.' :: r6 =>
        let s4 := takeDigits r6
        if s4.1.isEmpty then none else
        match s4.2 with
        | '.' :: r8 =>
          if List.isPrefixOf ['b', 'i', 'n'] r8 || List.isPrefixOf ['d', 'f', 'u'] r8 then
            some (s1.1 ++ '.' :: (s2.1 ++ '.' :: (s3.1 ++ '.' :: s4.1)))
          else none
        | _ => none
      | _ => none
    | _ => none
  | _ => none

/-- Leftmost-match scan: the regex can only match starting at a `-`, so
every `-` position is tried left to right. -/
def scanForVersion : List Char → Option (List Char)
  | [] => none
  | c :: cs =>
    if c = '-' then
      match matchVersionAt cs with
      | some v => some v
      | none => scanForVersion cs
    else scanForVersion cs

/-- `key.match(versionRegex)` reduced to its captured group: the version
string embedded in an object key, when present. -/
def extractVersion (key : String) : Option String :=
  (scanForVersion key.toList).map (fun l => String.mk l)

/-! ## extractAvailableVersions (lines 27-38) -/

/-- One step of collecting versions into the `Set`: a JS `Set` keeps
first-insertion order and ignores re-insertions. -/
def addVersion (acc : List String) (key : String) : List String :=
  match extractVersion key with
  | some v => if v ∈ acc then acc else acc ++ [v]
  | none => acc

/-- `extractAvailableVersions(relevantKeys)` of firmware.ts. -/
def extractAvailableVersions (relevantKeys : List String) : List String :=
  relevantKeys.foldl addVersion []

/-! ## Hardware-type classification (lines 84-106) -/

/-- The `notecardTypeMap` object literal; JS object iteration preserves
this insertion order for non-index string keys. -/
def notecardTypeMap : List (String × List String) :=
  [("", ["500"]), ("u5", ["NB", "MB", "WB"]), ("wl", ["LW"]), ("s3", ["ESP"])]

/-- `getNotecardTypeFromModel(notecardModel)`: `null`/`undefined`/`""`
are all falsy and yield `null`; otherwise the entries are scanned in
declared order and the first whose any substring occurs in the model
wins. -/
def getNotecardTypeFromModel (notecardModel : Option String) : Option String :=
  match notecardModel with
  | none => none
  | some m =>
    if m = "" then none
    else (notecardTypeMap.find? (fun e => e.2.any (fun sub => jsIncludes m sub))).map Prod.fst

/-! ## Key filtering and listing (lines 41-81, 134-140) -/

/-- `allKeys.filter(key => key.includes(`-${notecardType}-`))`. -/
def relevantFor (allKeys : List String) (notecardType : String) : List String :=
  allKeys.filter (fun key => jsIncludes key ("-" ++ notecardType ++ "-"))

/-- Pure part of `listAvailableFirmwareVersions` (lines 41-81), after the
fetch: both empty-keys cases return an empty list, not an error. -/
def listAvailableFirmwareVersions (updateType : String) (allKeys : List String)
    (notecardType : String) : List String :=
  if allKeys = [] then []
  else
    if relevantFor allKeys notecardType = [] then []
    else extractAvailableVersions (relevantFor allKeys notecardType)

/-! ## findFirmwareUrl (lines 109-207) -/

/-- The mutable pair `(selectedKey, latestVersion)` of the selection
loop. -/
structure ScanState where
  selectedKey : Option String
  latestVersion : String
deriving DecidableEq, Repr

/-- One iteration of the `for (const key of relevantKeys)` loop
(lines 151-170), for either selection mode. -/
def scanStep (versionToUse : String) (st : ScanState) (key : String) : ScanState :=
  match extractVersion key with
  | none => st
  | some keyVersion =>
    if versionToUse = "latest" then
      if 0 < compareVersions keyVersion st.latestVersion then
        { selectedKey := some key, latestVersion := keyVersion }
      else
        match st.selectedKey with
        | some sel =>
          if compareVersions keyVersion st.latestVersion = 0 ∧
              jsEndsWith key ".bin" = false ∧ jsEndsWith sel ".dfu" = true then
            { st with selectedKey := some key }
          else st
        | none => st
    else
      if keyVersion = versionToUse then
        match st.selectedKey with
        | none => { st with selectedKey := some key }
        | some sel =>
          if (jsEndsWith sel ".bin" = false ∧ jsEndsWith key ".bin" = true) ∨
              jsEndsWith key ".bin" = true then
            { st with selectedKey := some key }
          else st
      else st

/-- The whole selection loop, from the initial state
`selectedKey = null`, `latestVersion = '0.0.0.0'` (lines 147-148). -/
def scanKeys (versionToUse : String) (relevantKeys : List String) : ScanState :=
  relevantKeys.foldl (scanStep versionToUse) { selectedKey := none, latestVersion := "0.0.0.0" }

/-- The fixed artifact host prefixed to the selected key (line 194). -/
def firmwareHost : String := "https://notecard-firmware.s3.amazonaws.com/"

/-- `availableVersions.join(', ') || 'None'` (line 182). -/
def availableJoin (versions : List String) : String :=
  if String.intercalate ", " versions = "" then "None"
  else String.intercalate ", " versions

/-- `availableVersions.length > 0 ? ' Available: ...' : ''` (line 188). -/
def availableSuffix (versions : List String) : String :=
  if 0 < versions.length then " Available: " ++ String.intercalate ", " versions else ""

/-- Lines 180-200 of findFirmwareUrl: the straight-line code after the
loop and after the up-to-date check did not fire. -/
def selectionResult (notecardType versionToUse : String) (availableVersions : List String)
    (st : ScanState) : Except String (Option String) :=
  if versionToUse ≠ "latest" ∧ st.selectedKey = none then
    .error ("Firmware version \x27" ++ versionToUse ++ "\x27 not found for Notecard type \x27" ++
      notecardType ++ "\x27. Available: " ++ availableJoin availableVersions)
  else if versionToUse = "latest" ∧ st.selectedKey = none then
    .error ("Could not find any valid firmware versions for Notecard type \x27" ++ notecardType ++
      "\x27." ++ availableSuffix availableVersions)
  else
    match st.selectedKey with
    | some key => .ok (some (firmwareHost ++ key))
    | none => .error "Could not determine appropriate firmware key after filtering."

/-- Body of `findFirmwareUrl` after the fetch (lines 127-200): `allKeys`
is the key list extracted from the fetched XML.  `.ok none` is the
`return null` "already up to date" outcome; `.error` models a thrown
error.  The up-to-date check (line 175) tests `currentVersion &&`, so an
empty current version string is falsy and skips the check. -/
def findFirmwareUrlCore (updateType : String) (allKeys : List String)
    (notecardType versionToUse : String) (currentVersion : Option String) :
    Except String (Option String) :=
  if allKeys = [] then
    .error ("No firmware files found in S3 XML for prefix \x27" ++ updateType ++ "\x27.")
  else if relevantFor allKeys notecardType = [] then
    .error ("No firmware files found for Notecard type \x27" ++ notecardType ++
      "\x27 with prefix \x27" ++ updateType ++ "\x27.")
  else
    let relevantKeys := relevantFor allKeys notecardType
    let availableVersions := extractAvailableVersions relevantKeys
    let st := scanKeys versionToUse relevantKeys
    match currentVersion with
    | some c =>
      if versionToUse = "latest" ∧ c ≠ "" ∧ 0 ≤ compareVersions c st.latestVersion then
        .ok none
      else selectionResult notecardType versionToUse availableVersions st
    | none => selectionResult notecardType versionToUse availableVersions st

/-- The catch-all wrapper (lines 202-206): every thrown error is
re-thrown with the `Could not find firmware: ` prefix. -/
def wrapFirmwareError : Except String (Option String) → Except String (Option String)
  | .error m => .error ("Could not find firmware: " ++ m)
  | .ok x => .ok x

/-- `findFirmwareUrl` of firmware.ts, with the fetched key list passed
explicitly. -/
def findFirmwareUrl (updateType : String) (allKeys : List String)
    (notecardType versionToUse : String) (currentVersion : Option String) :
    Except String (Option String) :=
  wrapFirmwareError (findFirmwareUrlCore updateType allKeys notecardType versionToUse currentVersion)

end Notecard

namespace Notecard

/-! ## Order properties of the version comparator -/

theorem cmpZeros_nonpos : ∀ qs : List Nat, cmpZeros qs ≤ 0
  | [] => by simp [cmpZeros]
  | q :: qs => by
    simp only [cmpZeros]
    split_ifs <;> first | omega | exact cmpZeros_nonpos qs

theorem compareParts_nil_right_nonneg : ∀ ps : List Nat, 0 ≤ compareParts ps []
  | [] => by simp [compareParts, cmpZeros]
  | p :: ps => by
    simp only [compareParts]
    split_ifs <;> first | omega | exact compareParts_nil_right_nonneg ps

theorem cmpZeros_eq_zero : ∀ qs : List Nat, (∀ q ∈ qs, q = 0) → cmpZeros qs = 0
  | [], _ => rfl
  | q :: qs, h => by
    have hq : q = 0 := h q (List.mem_cons_self q qs)
    simp only [cmpZeros, hq]
    split_ifs <;> first | omega | exact cmpZeros_eq_zero qs fun x hx => h x (List.mem_cons_of_mem q hx)

theorem compareParts_zeros_nonneg : ∀ (a zs : List Nat), (∀ z ∈ zs, z = 0) → 0 ≤ compareParts a zs
  | [], zs, h => by
    have : compareParts [] zs = cmpZeros zs := rfl
    rw [this, cmpZeros_eq_zero zs h]
  | p :: ps, [], _ => compareParts_nil_right_nonneg (p :: ps)
  | p :: ps, z :: zs, h => by
    have hz : z = 0 := h z (List.mem_cons_self z zs)
    simp only [compareParts]
    split_ifs <;>
      first
      | omega
      | exact compareParts_zeros_nonneg ps zs fun x hx => h x (List.mem_cons_of_mem z hx)

theorem compareParts_self : ∀ a : List Nat, compareParts a a = 0
  | [] => rfl
  | p :: ps => by
    simp only [compareParts]
    split_ifs <;> first | omega | exact compareParts_self ps

theorem cmpZeros_neg : ∀ b : List Nat, cmpZeros b = -compareParts b []
  | [] => rfl
  | q :: qs => by
    simp only [cmpZeros, compareParts]
    split_ifs <;> first | omega | (rw [cmpZeros_neg qs])

theorem compareParts_neg : ∀ a b : List Nat, compareParts a b = -compareParts b a
  | [], b => by
    have h : compareParts [] b = cmpZeros b := rfl
    rw [h, cmpZeros_neg]
  | p :: ps, [] => by
    have h : compareParts [] (p :: ps) = cmpZeros (p :: ps) := rfl
    rw [h, cmpZeros_neg (p :: ps)]
    omega
  | p :: ps, q :: qs => by
    simp only [compareParts]
    split_ifs <;> first | omega | (rw [compareParts_neg ps qs]; try omega)

theorem compareParts_base_snoc : ∀ b : List Nat, compareParts [0] b = cmpZeros b
  | [] => by simp [compareParts, cmpZeros]
  | q :: qs => by
    simp only [compareParts, cmpZeros]

theorem compareParts_snoc_zero : ∀ a b : List Nat, compareParts (a ++ [0]) b = compareParts a b
  | [], b => by
    have h : compareParts [] b = cmpZeros b := rfl
    rw [List.nil_append, h, compareParts_base_snoc]
  | p :: ps, [] => by
    simp only [List.cons_append, compareParts]
    split_ifs <;> first | rfl | exact compareParts_snoc_zero ps []
  | p :: ps, q :: qs => by
    simp only [List.cons_append, compareParts]
    split_ifs <;> first | rfl | exact compareParts_snoc_zero ps qs

theorem compareParts_pad_left :
    ∀ (k : Nat) (a b : List Nat), compareParts (a ++ List.replicate k 0) b = compareParts a b
  | 0, a, b => by simp
  | k + 1, a, b => by
    have h : a ++ List.replicate (k + 1) 0 = (a ++ [0]) ++ List.replicate k 0 := by
      simp [List.replicate_succ, List.append_assoc]
    rw [h, compareParts_pad_left k (a ++ [0]) b, compareParts_snoc_zero]

theorem compareParts_pad_right (k : Nat) (a b : List Nat) :
    compareParts a (b ++ List.replicate k 0) = compareParts a b := by
  rw [compareParts_neg, compareParts_pad_left, ← compareParts_neg]

theorem compareParts_trans_eqlen :
    ∀ a b c : List Nat, a.length = b.length → b.length = c.length →
      compareParts a b ≤ 0 → compareParts b c ≤ 0 → compareParts a c ≤ 0 := by
  intro a
  induction a with
  | nil =>
    intro b c hab hbc _ _
    have hb : b = [] := List.eq_nil_of_length_eq_zero (by simpa using hab.symm)
    subst hb
    have hc : c = [] := List.eq_nil_of_length_eq_zero (by simpa using hbc.symm)
    subst hc
    simp [compareParts, cmpZeros]
  | cons p ps ih =>
    intro b c hab hbc h1 h2
    cases b with
    | nil => simp at hab
    | cons q qs =>
      cases c with
      | nil => simp at hbc
      | cons r rs =>
        simp only [compareParts] at h1 h2 ⊢
        by_cases hpq : p > q
        · rw [if_pos hpq] at h1; omega
        rw [if_neg hpq] at h1
        by_cases hqr : q > r
        · rw [if_pos hqr] at h2; omega
        rw [if_neg hqr] at h2
        by_cases hpr : p > r
        · exfalso; omega
        rw [if_neg hpr]
        by_cases hpr2 : p < r
        · rw [if_pos hpr2]; omega
        rw [if_neg hpr2]
        have hpq2 : ¬p < q := by omega
        have hqr2 : ¬q < r := by omega
        rw [if_neg hpq2] at h1
        rw [if_neg hqr2] at h2
        exact ih qs rs (by simpa using hab) (by simpa using hbc) h1 h2

theorem compareParts_trans (a b c : List Nat)
    (h1 : compareParts a b ≤ 0) (h2 : compareParts b c ≤ 0) : compareParts a c ≤ 0 := by
  have ha : a.length ≤ max (max a.length b.length) c.length :=
    (le_max_left a.length b.length).trans (le_max_left _ _)
  have hb : b.length ≤ max (max a.length b.length) c.length :=
    (le_max_right a.length b.length).trans (le_max_left _ _)
  have hc : c.length ≤ max (max a.length b.length) c.length := le_max_right _ _
  set n := max (max a.length b.length) c.length with hn
  have la : (a ++ List.replicate (n - a.length) 0).length = n := by
    simp only [List.length_append, List.length_replicate]; omega
  have lb : (b ++ List.replicate (n - b.length) 0).length = n := by
    simp only [List.length_append, List.length_replicate]; omega
  have lc : (c ++ List.replicate (n - c.length) 0).length = n := by
    simp only [List.length_append, List.length_replicate]; omega
  have e1 : compareParts (a ++ List.replicate (n - a.length) 0)
      (b ++ List.replicate (n - b.length) 0) = compareParts a b := by
    rw [compareParts_pad_left, compareParts_pad_right]
  have e2 : compareParts (b ++ List.replicate (n - b.length) 0)
      (c ++ List.replicate (n - c.length) 0) = compareParts b c := by
    rw [compareParts_pad_left, compareParts_pad_right]
  have e3 : compareParts (a ++ List.replicate (n - a.length) 0)
      (c ++ List.replicate (n - c.length) 0) = compareParts a c := by
    rw [compareParts_pad_left, compareParts_pad_right]
  rw [← e3]
  exact compareParts_trans_eqlen _ _ _ (la.trans lb.symm) (lb.trans lc.symm)
    (e1.symm ▸ h1) (e2.symm ▸ h2)

theorem compareVersions_self (a : String) : compareVersions a a = 0 :=
  compareParts_self _

theorem compareVersions_neg (a b : String) : compareVersions a b = -compareVersions b a :=
  compareParts_neg _ _

theorem compareVersions_trans (a b c : String)
    (h1 : compareVersions a b ≤ 0) (h2 : compareVersions b c ≤ 0) : compareVersions a c ≤ 0 :=
  compareParts_trans _ _ _ h1 h2

theorem compareVersions_sentinel_nonneg (c : String) : 0 ≤ compareVersions c "0.0.0.0" := by
  have hv : versionParts "0.0.0.0" = [0, 0, 0, 0] := rfl
  show 0 ≤ compareParts (versionParts c) (versionParts "0.0.0.0")
  rw [hv]
  exact compareParts_zeros_nonneg _ _ (by decide)

end Notecard

namespace Notecard

/-! ## Lemmas about the selection loop -/

theorem scanStep_extract_none (v : String) (st : ScanState) (key : String)
    (h : extractVersion key = none) : scanStep v st key = st := by
  simp [scanStep, h]

theorem scanStep_selectedKey_none (v : String) (st : ScanState) (key : String)
    (h : (scanStep v st key).selectedKey = none) : st.selectedKey = none := by
  obtain ⟨osel, lv⟩ := st
  rcases hx : extractVersion key with _ | kv <;>
    simp only [scanStep, hx] at h
  · exact h
  · by_cases hv : v = "latest"
    · rw [if_pos hv] at h
      by_cases hgt : 0 < compareVersions kv lv
      · rw [if_pos hgt] at h; simp at h
      · rw [if_neg hgt] at h
        rcases osel with _ | sel
        · rfl
        · dsimp only at h
          split_ifs at h
    · rw [if_neg hv] at h
      by_cases hkv : kv = v
      · rw [if_pos hkv] at h
        rcases osel with _ | sel
        · simp at h
        · dsimp only at h
          split_ifs at h
      · rw [if_neg hkv] at h; exact h

theorem scanFold_selected_persists (v : String) :
    ∀ (keys : List String) (st : ScanState), st.selectedKey ≠ none →
      (keys.foldl (scanStep v) st).selectedKey ≠ none
  | [], _, h => h
  | k :: ks, st, h => by
    simp only [List.foldl_cons]
    exact scanFold_selected_persists v ks _
      (fun hnone => h (scanStep_selectedKey_none v st k hnone))

theorem scanFold_id_of_none (v : String) :
    ∀ (keys : List String) (st : ScanState), (∀ k ∈ keys, extractVersion k = none) →
      keys.foldl (scanStep v) st = st
  | [], _, _ => rfl
  | k :: ks, st, h => by
    simp only [List.foldl_cons]
    rw [scanStep_extract_none v st k (h k (List.mem_cons_self k ks))]
    exact scanFold_id_of_none v ks st fun x hx => h x (List.mem_cons_of_mem k hx)

theorem scanStep_specific_nomatch (v : String) (hv : v ≠ "latest") (st : ScanState)
    (key : String) (h : ∀ kv, extractVersion key = some kv → kv ≠ v) :
    scanStep v st key = st := by
  rcases hx : extractVersion key with _ | kv
  · exact scanStep_extract_none v st key hx
  · simp only [scanStep, hx]
    rw [if_neg hv, if_neg (h kv hx)]

theorem scanFold_specific_nomatch (v : String) (hv : v ≠ "latest") :
    ∀ (keys : List String) (st : ScanState),
      (∀ k ∈ keys, ∀ kv, extractVersion k = some kv → kv ≠ v) →
      keys.foldl (scanStep v) st = st
  | [], _, _ => rfl
  | k :: ks, st, h => by
    simp only [List.foldl_cons]
    rw [scanStep_specific_nomatch v hv st k (h k (List.mem_cons_self k ks))]
    exact scanFold_specific_nomatch v hv ks st fun x hx => h x (List.mem_cons_of_mem k hx)

theorem scanStep_specific_match_selected (v : String) (hv : v ≠ "latest") (st : ScanState)
    (key : String) (h : extractVersion key = some v) :
    (scanStep v st key).selectedKey ≠ none := by
  obtain ⟨osel, lv⟩ := st
  simp only [scanStep, h]
  rw [if_neg hv]
  simp only [if_true]
  rcases osel with _ | sel
  · simp
  · dsimp only
    split_ifs <;> simp

theorem scanFold_specific_selected (v : String) (hv : v ≠ "latest") :
    ∀ (keys : List String) (st : ScanState),
      ((∃ k ∈ keys, extractVersion k = some v) ∨ st.selectedKey ≠ none) →
      (keys.foldl (scanStep v) st).selectedKey ≠ none
  | [], st, h => by
    rcases h with ⟨k, hk, _⟩ | h
    · exact absurd hk (List.not_mem_nil k)
    · exact h
  | k :: ks, st, h => by
    simp only [List.foldl_cons]
    rcases h with ⟨k2, hk2, hex⟩ | h
    · rcases List.mem_cons.mp hk2 with rfl | hk2
      · exact scanFold_selected_persists v ks _ (scanStep_specific_match_selected v hv st k2 hex)
      · exact scanFold_specific_selected v hv ks _ (Or.inl ⟨k2, hk2, hex⟩)
    · exact scanFold_specific_selected v hv ks _
        (Or.inr fun hnone => h (scanStep_selectedKey_none v st k hnone))

theorem scanStep_latestVersion_of_ne (v : String) (hv : v ≠ "latest") (st : ScanState)
    (key : String) : (scanStep v st key).latestVersion = st.latestVersion := by
  obtain ⟨osel, lv⟩ := st
  rcases hx : extractVersion key with _ | kv
  · rw [scanStep_extract_none v _ key hx]
  · simp only [scanStep, hx]
    rw [if_neg hv]
    by_cases hkv : kv = v
    · rw [if_pos hkv]
      rcases osel with _ | sel
      · rfl
      · dsimp only
        split_ifs <;> rfl
    · rw [if_neg hkv]

end Notecard

namespace Notecard

/-- Invariant of the `latest` selection loop over the keys processed so
far: the tracked version is the running maximum of all extracted
versions (still the sentinel when nothing was selected), and the
selected key, if any, is a processed key whose extracted version
compares equal to the tracked maximum. -/
def LatestInv (keys : List String) (st : ScanState) : Prop :=
  (st.selectedKey = none → st.latestVersion = "0.0.0.0") ∧
  (∀ k ∈ keys, ∀ kv, extractVersion k = some kv → compareVersions kv st.latestVersion ≤ 0) ∧
  (∀ k, st.selectedKey = some k →
    k ∈ keys ∧ ∃ kv, extractVersion k = some kv ∧ compareVersions kv st.latestVersion = 0)

theorem latestInv_init : LatestInv [] { selectedKey := none, latestVersion := "0.0.0.0" } := by
  refine ⟨fun _ => rfl, ?_, ?_⟩
  · intro k hk
    exact absurd hk (List.not_mem_nil k)
  · intro k hk
    simp at hk

theorem latestInv_step (keys : List String) (st : ScanState) (key : String)
    (h : LatestInv keys st) : LatestInv (keys ++ [key]) (scanStep "latest" st key) := by
  obtain ⟨h1, h2, h3⟩ := h
  rcases hx : extractVersion key with _ | kv
  · rw [scanStep_extract_none _ _ _ hx]
    refine ⟨h1, ?_, ?_⟩
    · intro k hk kv2 hkv2
      rcases List.mem_append.mp hk with hk | hk
      · exact h2 k hk kv2 hkv2
      · rw [List.mem_singleton] at hk
        subst hk
        rw [hx] at hkv2
        cases hkv2
    · intro k hk
      obtain ⟨hmem, rest⟩ := h3 k hk
      exact ⟨List.mem_append_left _ hmem, rest⟩
  · obtain ⟨osel, lv⟩ := st
    simp only [scanStep, hx, if_true]
    by_cases hgt : 0 < compareVersions kv lv
    · rw [if_pos hgt]
      refine ⟨by intro hc; simp at hc, ?_, ?_⟩
      · intro k hk kv2 hkv2
        rcases List.mem_append.mp hk with hk | hk
        · have hold := h2 k hk kv2 hkv2
          have hneg := compareVersions_neg lv kv
          have hle : compareVersions lv kv ≤ 0 := by omega
          exact compareVersions_trans _ _ _ hold hle
        · rw [List.mem_singleton] at hk
          subst hk
          rw [hx] at hkv2
          cases hkv2
          simp [compareVersions_self]
      · intro k hk
        simp only at hk
        cases hk
        refine ⟨List.mem_append_right _ (List.mem_singleton.mpr rfl), kv, hx, ?_⟩
        simp [compareVersions_self]
    · rw [if_neg hgt]
      have hle : compareVersions kv lv ≤ 0 := by omega
      rcases osel with _ | sel
      · refine ⟨h1, ?_, ?_⟩
        · intro k hk kv2 hkv2
          rcases List.mem_append.mp hk with hk | hk
          · exact h2 k hk kv2 hkv2
          · rw [List.mem_singleton] at hk
            subst hk
            rw [hx] at hkv2
            cases hkv2
            exact hle
        · intro k hk
          obtain ⟨hmem, rest⟩ := h3 k hk
          exact ⟨List.mem_append_left _ hmem, rest⟩
      · dsimp only
        split_ifs with hcond
        · refine ⟨by intro hc; simp at hc, ?_, ?_⟩
          · intro k hk kv2 hkv2
            rcases List.mem_append.mp hk with hk | hk
            · exact h2 k hk kv2 hkv2
            · rw [List.mem_singleton] at hk
              subst hk
              rw [hx] at hkv2
              cases hkv2
              exact hle
          · intro k hk
            simp only at hk
            cases hk
            exact ⟨List.mem_append_right _ (List.mem_singleton.mpr rfl), kv, hx, hcond.1⟩
        · refine ⟨h1, ?_, ?_⟩
          · intro k hk kv2 hkv2
            rcases List.mem_append.mp hk with hk | hk
            · exact h2 k hk kv2 hkv2
            · rw [List.mem_singleton] at hk
              subst hk
              rw [hx] at hkv2
              cases hkv2
              exact hle
          · intro k hk
            obtain ⟨hmem, rest⟩ := h3 k hk
            exact ⟨List.mem_append_left _ hmem, rest⟩

theorem latestInv_foldl :
    ∀ (keys acc : List String) (st : ScanState), LatestInv acc st →
      LatestInv (acc ++ keys) (keys.foldl (scanStep "latest") st)
  | [], acc, st, h => by simpa using h
  | k :: ks, acc, st, h => by
    simp only [List.foldl_cons]
    have hstep := latestInv_step acc st k h
    have hres := latestInv_foldl ks (acc ++ [k]) (scanStep "latest" st k) hstep
    simpa [List.append_assoc] using hres

theorem latestInv_scanKeys (keys : List String) : LatestInv keys (scanKeys "latest" keys) := by
  have h := latestInv_foldl keys [] _ latestInv_init
  simpa using h

end Notecard

namespace Notecard

/-! ## Lemmas about version collection and the result plumbing -/

theorem addVersion_nodup (acc : List String) (key : String) (h : acc.Nodup) :
    (addVersion acc key).Nodup := by
  unfold addVersion
  rcases extractVersion key with _ | v
  · exact h
  · dsimp only
    split_ifs with hmem
    · exact h
    · simpa [List.nodup_append, hmem] using h

theorem mem_addVersion (acc : List String) (key : String) (x : String) :
    x ∈ addVersion acc key ↔ x ∈ acc ∨ extractVersion key = some x := by
  unfold addVersion
  rcases hx : extractVersion key with _ | v
  · simp
  · dsimp only
    split_ifs with hmem
    · constructor
      · intro h; exact Or.inl h
      · rintro (h | h)
        · exact h
        · cases h; exact hmem
    · simp only [List.mem_append, List.mem_singleton]
      constructor
      · rintro (h | h)
        · exact Or.inl h
        · subst h; exact Or.inr rfl
      · rintro (h | h)
        · exact Or.inl h
        · cases h; exact Or.inr rfl

theorem extractAvailableVersions_foldl_nodup :
    ∀ (keys acc : List String), acc.Nodup → (keys.foldl addVersion acc).Nodup
  | [], _, h => h
  | k :: ks, acc, h => by
    simp only [List.foldl_cons]
    exact extractAvailableVersions_foldl_nodup ks _ (addVersion_nodup acc k h)

theorem mem_extractAvailableVersions_foldl :
    ∀ (keys acc : List String) (x : String),
      x ∈ keys.foldl addVersion acc ↔ x ∈ acc ∨ ∃ k ∈ keys, extractVersion k = some x
  | [], acc, x => by simp
  | k :: ks, acc, x => by
    simp only [List.foldl_cons]
    rw [mem_extractAvailableVersions_foldl ks _ x, mem_addVersion]
    constructor
    · rintro ((h | h) | ⟨k2, hk2, h⟩)
      · exact Or.inl h
      · exact Or.inr ⟨k, List.mem_cons_self k ks, h⟩
      · exact Or.inr ⟨k2, List.mem_cons_of_mem k hk2, h⟩
    · rintro (h | ⟨k2, hk2, h⟩)
      · exact Or.inl (Or.inl h)
      · rcases List.mem_cons.mp hk2 with rfl | hk2
        · exact Or.inl (Or.inr h)
        · exact Or.inr ⟨k2, hk2, h⟩

theorem mem_extractAvailableVersions (keys : List String) (x : String) :
    x ∈ extractAvailableVersions keys ↔ ∃ k ∈ keys, extractVersion k = some x := by
  unfold extractAvailableVersions
  rw [mem_extractAvailableVersions_foldl]
  simp

theorem selectionResult_ne_ok_none (notecardType versionToUse : String)
    (avail : List String) (st : ScanState) :
    selectionResult notecardType versionToUse avail st ≠ Except.ok none := by
  unfold selectionResult
  split_ifs
  · simp
  · simp
  · rcases st.selectedKey with _ | k <;> simp

theorem selectionResult_ok_some (notecardType versionToUse : String)
    (avail : List String) (st : ScanState) (u : String)
    (h : selectionResult notecardType versionToUse avail st = Except.ok (some u)) :
    ∃ k, st.selectedKey = some k ∧ u = firmwareHost ++ k := by
  unfold selectionResult at h
  split_ifs at h
  rcases hsel : st.selectedKey with _ | k
  · rw [hsel] at h; simp at h
  · rw [hsel] at h
    simp only [Except.ok.injEq, Option.some.injEq] at h
    exact ⟨k, rfl, h.symm⟩

theorem selectionResult_of_selected (notecardType versionToUse : String)
    (avail : List String) (st : ScanState) (k : String) (h : st.selectedKey = some k) :
    selectionResult notecardType versionToUse avail st = Except.ok (some (firmwareHost ++ k)) := by
  unfold selectionResult
  rw [if_neg (by simp [h]), if_neg (by simp [h]), h]

theorem selectionResult_specific_none (notecardType versionToUse : String)
    (avail : List String) (st : ScanState) (hv : versionToUse ≠ "latest")
    (h : st.selectedKey = none) :
    selectionResult notecardType versionToUse avail st =
      Except.error ("Firmware version \x27" ++ versionToUse ++
        "\x27 not found for Notecard type \x27" ++ notecardType ++ "\x27. Available: " ++
        availableJoin avail) := by
  unfold selectionResult
  rw [if_pos ⟨hv, h⟩]

theorem wrapFirmwareError_ok_iff (r : Except String (Option String)) (x : Option String) :
    wrapFirmwareError r = Except.ok x ↔ r = Except.ok x := by
  rcases r with m | y <;> simp [wrapFirmwareError]

theorem relevantFor_nil (notecardType : String) : relevantFor [] notecardType = [] := rfl

theorem allKeys_ne_nil_of_relevant (allKeys : List String) (notecardType : String)
    (h : relevantFor allKeys notecardType ≠ []) : allKeys ≠ [] := by
  intro hk
  subst hk
  exact h rfl

theorem findFirmwareUrlCore_eq (updateType : String) (allKeys : List String)
    (notecardType versionToUse : String) (currentVersion : Option String)
    (hrel : relevantFor allKeys notecardType ≠ []) :
    findFirmwareUrlCore updateType allKeys notecardType versionToUse currentVersion =
      match currentVersion with
      | some c =>
        if versionToUse = "latest" ∧ c ≠ "" ∧
            0 ≤ compareVersions c (scanKeys versionToUse (relevantFor allKeys notecardType)).latestVersion then
          Except.ok none
        else
          selectionResult notecardType versionToUse
            (extractAvailableVersions (relevantFor allKeys notecardType))
            (scanKeys versionToUse (relevantFor allKeys notecardType))
      | none =>
        selectionResult notecardType versionToUse
          (extractAvailableVersions (relevantFor allKeys notecardType))
          (scanKeys versionToUse (relevantFor allKeys notecardType)) := by
  have hk := allKeys_ne_nil_of_relevant allKeys notecardType hrel
  unfold findFirmwareUrlCore
  rw [if_neg hk, if_neg hrel]

end Notecard

namespace Notecard

/-! ## The claims -/

/-- Claim C7: for all version strings `a`, `b`, `c` the comparator is
antisymmetric (`compare a b = -compare b a`), reflexively zero
(`compare a a = 0`) and transitive on `<= 0`, and missing trailing
components compare as 0, so `"1.2"` compares equal to `"1.2.0.0"`. -/
theorem compareVersions_total_order (a b c : String) :
    compareVersions a b = -compareVersions b a ∧
    compareVersions a a = 0 ∧
    (compareVersions a b ≤ 0 → compareVersions b c ≤ 0 → compareVersions a c ≤ 0) ∧
    compareVersions "1.2" "1.2.0.0" = 0 :=
  ⟨compareVersions_neg a b, compareVersions_self a,
    fun h1 h2 => compareVersions_trans a b c h1 h2, rfl⟩

/-- Witness for C7 at concrete versions. -/
theorem compareVersions_total_order_witness :
    compareVersions "6.2.5.9" "6.2.5.16868" = -compareVersions "6.2.5.16868" "6.2.5.9" ∧
    compareVersions "6.2.5.9" "6.2.5.9" = 0 ∧
    (compareVersions "6.2.5.9" "6.2.5.16868" ≤ 0 → compareVersions "6.2.5.16868" "7.0" ≤ 0 →
      compareVersions "6.2.5.9" "7.0" ≤ 0) ∧
    compareVersions "1.2" "1.2.0.0" = 0 :=
  compareVersions_total_order "6.2.5.9" "6.2.5.16868" "7.0"

/-- Claim C9: the extracted version collection never contains duplicate
versions, and a version is in it exactly when some input key encodes it,
so keys differing only in artifact-format suffix contribute one entry. -/
theorem extractAvailableVersions_nodup (keys : List String) :
    (extractAvailableVersions keys).Nodup ∧
    ∀ x, x ∈ extractAvailableVersions keys ↔ ∃ k ∈ keys, extractVersion k = some x :=
  ⟨extractAvailableVersions_foldl_nodup keys [] List.nodup_nil,
    fun x => mem_extractAvailableVersions keys x⟩

/-- Claim C8: classification scans the mapping in its declared order
("" then "u5" then "wl" then "s3") and returns the first code whose any
substring occurs in the model; null and empty models, and models
matching no entry, give NotFound; `"NOTE-NBGL-500"` (which contains both
a "500"-class and an "NB"-class substring) always yields `""`. -/
theorem getNotecardTypeFromModel_spec (m : String) (hm : m ≠ "") :
    getNotecardTypeFromModel none = none ∧
    getNotecardTypeFromModel (some "") = none ∧
    getNotecardTypeFromModel (some "NOTE-NBGL-500") = some "" ∧
    getNotecardTypeFromModel (some m) =
      (if jsIncludes m "500" then some ""
       else if jsIncludes m "NB" || jsIncludes m "MB" || jsIncludes m "WB" then some "u5"
       else if jsIncludes m "LW" then some "wl"
       else if jsIncludes m "ESP" then some "s3"
       else none) := by
  refine ⟨rfl, rfl, rfl, ?_⟩
  simp only [getNotecardTypeFromModel, if_neg hm, notecardTypeMap]
  cases h1 : jsIncludes m "500" <;>
    cases h2 : jsIncludes m "NB" <;>
      cases h3 : jsIncludes m "MB" <;>
        cases h4 : jsIncludes m "WB" <;>
          cases h5 : jsIncludes m "LW" <;>
            cases h6 : jsIncludes m "ESP" <;>
              simp [List.find?, h1, h2, h3, h4, h5, h6]

/-- Witness for C8 at a concrete model string. -/
theorem getNotecardTypeFromModel_spec_witness :
    getNotecardTypeFromModel none = none ∧
    getNotecardTypeFromModel (some "") = none ∧
    getNotecardTypeFromModel (some "NOTE-NBGL-500") = some "" ∧
    getNotecardTypeFromModel (some "NOTE-ESP32") =
      (if jsIncludes "NOTE-ESP32" "500" then some ""
       else if jsIncludes "NOTE-ESP32" "NB" || jsIncludes "NOTE-ESP32" "MB" ||
          jsIncludes "NOTE-ESP32" "WB" then some "u5"
       else if jsIncludes "NOTE-ESP32" "LW" then some "wl"
       else if jsIncludes "NOTE-ESP32" "ESP" then some "s3"
       else none) :=
  getNotecardTypeFromModel_spec "NOTE-ESP32" (by decide)

/-- Claim C1 (refuted on the code): on a version tie in the `latest`
path the tie-break branch requires the incoming key NOT to end in
`.bin`, so a BIN key never replaces a DFU selection: with the DFU key
listed first the DFU key is returned, and with the BIN key first the
BIN key is returned — the selection is order-dependent and does not
prefer BIN. -/
theorem latest_tie_keeps_dfu_key :
    findFirmwareUrl "LTS" ["notecard-u5-6.2.5.16868.dfu", "notecard-u5-6.2.5.16868.bin"]
        "u5" "latest" none =
      Except.ok (some "https://notecard-firmware.s3.amazonaws.com/notecard-u5-6.2.5.16868.dfu") ∧
    findFirmwareUrl "LTS" ["notecard-u5-6.2.5.16868.bin", "notecard-u5-6.2.5.16868.dfu"]
        "u5" "latest" none =
      Except.ok (some "https://notecard-firmware.s3.amazonaws.com/notecard-u5-6.2.5.16868.bin") :=
  ⟨rfl, rfl⟩

/-- Counterexample to C4 as stated: a listing whose only key carries the
extractable version 0.0.0.0 makes `latest` resolution fail with the
no-valid-versions error instead of selecting that key, because the
tracker starts at the sentinel 0.0.0.0 and only strictly greater
versions are ever selected. -/
theorem latest_zero_version_counterexample :
    extractVersion "notecard-u5-0.0.0.0.bin" = some "0.0.0.0" ∧
    relevantFor ["notecard-u5-0.0.0.0.bin"] "u5" = ["notecard-u5-0.0.0.0.bin"] ∧
    findFirmwareUrl "LTS" ["notecard-u5-0.0.0.0.bin"] "u5" "latest" none =
      Except.error "Could not find firmware: Could not find any valid firmware versions for Notecard type \x27u5\x27. Available: 0.0.0.0" :=
  ⟨rfl, rfl, rfl⟩

/-- Claim C4 as amended: if some hardware-filtered key carries an
extractable version strictly above the 0.0.0.0 sentinel, then every URL
produced by `latest` resolution points at a filtered key whose
extracted version is maximal among all extractable versions of the
filtered keys, and with no current version such a URL is produced. -/
theorem latest_selects_max_version (updateType : String) (allKeys : List String)
    (notecardType : String)
    (h : ∃ k ∈ relevantFor allKeys notecardType, ∃ kv, extractVersion k = some kv ∧
      0 < compareVersions kv "0.0.0.0") :
    (∀ (currentVersion : Option String) (u : String),
      findFirmwareUrl updateType allKeys notecardType "latest" currentVersion =
        Except.ok (some u) →
      ∃ k kv, u = firmwareHost ++ k ∧ k ∈ relevantFor allKeys notecardType ∧
        extractVersion k = some kv ∧
        ∀ k2 ∈ relevantFor allKeys notecardType, ∀ kv2, extractVersion k2 = some kv2 →
          compareVersions kv2 kv ≤ 0) ∧
    ∃ u, findFirmwareUrl updateType allKeys notecardType "latest" none = Except.ok (some u) := by
  obtain ⟨k0, hk0, kv0, hkv0, hgt0⟩ := h
  have hrel : relevantFor allKeys notecardType ≠ [] := by
    intro hnil
    rw [hnil] at hk0
    exact List.not_mem_nil k0 hk0
  have hinv := latestInv_scanKeys (relevantFor allKeys notecardType)
  unfold LatestInv at hinv
  obtain ⟨i1, i2, i3⟩ := hinv
  have hselne : (scanKeys "latest" (relevantFor allKeys notecardType)).selectedKey ≠ none := by
    intro hnone
    have hlat := i1 hnone
    have hb := i2 k0 hk0 kv0 hkv0
    rw [hlat] at hb
    omega
  constructor
  · intro currentVersion u hu
    unfold findFirmwareUrl at hu
    rw [wrapFirmwareError_ok_iff] at hu
    rw [findFirmwareUrlCore_eq _ _ _ _ _ hrel] at hu
    have hu2 : selectionResult notecardType "latest"
        (extractAvailableVersions (relevantFor allKeys notecardType))
        (scanKeys "latest" (relevantFor allKeys notecardType)) = Except.ok (some u) := by
      rcases currentVersion with _ | c
      · exact hu
      · dsimp only at hu
        split_ifs at hu
        · simp at hu
        · exact hu
    obtain ⟨k, hk, hu3⟩ := selectionResult_ok_some _ _ _ _ _ hu2
    obtain ⟨hmem, kv, hkv, hzero⟩ := i3 k hk
    refine ⟨k, kv, hu3, hmem, hkv, ?_⟩
    intro k2 hk2 kv2 hkv2
    have hb := i2 k2 hk2 kv2 hkv2
    have hneg := compareVersions_neg
      (scanKeys "latest" (relevantFor allKeys notecardType)).latestVersion kv
    have hle : compareVersions
        (scanKeys "latest" (relevantFor allKeys notecardType)).latestVersion kv ≤ 0 := by
      omega
    exact compareVersions_trans _ _ _ hb hle
  · rcases ho : (scanKeys "latest" (relevantFor allKeys notecardType)).selectedKey with _ | k
    · exact absurd ho hselne
    · refine ⟨firmwareHost ++ k, ?_⟩
      unfold findFirmwareUrl
      rw [findFirmwareUrlCore_eq _ _ _ _ _ hrel]
      dsimp only
      rw [selectionResult_of_selected _ _ _ _ k ho]
      rfl

/-- Witness for C4 (amended) at a concrete listing. -/
theorem latest_selects_max_version_witness :
    ∃ u, findFirmwareUrl "LTS" ["a-u5-1.2.3.4.bin"] "u5" "latest" none = Except.ok (some u) :=
  (latest_selects_max_version "LTS" ["a-u5-1.2.3.4.bin"] "u5"
    ⟨"a-u5-1.2.3.4.bin", by decide, "1.2.3.4", by decide, by decide⟩).2

end Notecard

namespace Notecard

/-- Claim C2: with hardware-filtered keys present and any present
current version a genuine (nonempty) version string, resolution returns
the up-to-date outcome exactly when `latest` is requested, a current
version is present, and it compares at least the tracked latest; a
specific version request ignores the current version entirely and still
selects a matching artifact. -/
theorem resolve_upToDate_iff (updateType : String) (allKeys : List String)
    (notecardType versionToUse : String) (currentVersion : Option String)
    (hrel : relevantFor allKeys notecardType ≠ [])
    (hcur : ∀ c, currentVersion = some c → c ≠ "") :
    (findFirmwareUrl updateType allKeys notecardType "latest" currentVersion = Except.ok none ↔
      ∃ c, currentVersion = some c ∧
        0 ≤ compareVersions c (scanKeys "latest" (relevantFor allKeys notecardType)).latestVersion) ∧
    (versionToUse ≠ "latest" →
      findFirmwareUrl updateType allKeys notecardType versionToUse currentVersion ≠
        Except.ok none ∧
      findFirmwareUrl updateType allKeys notecardType versionToUse currentVersion =
        findFirmwareUrl updateType allKeys notecardType versionToUse none ∧
      ((∃ k ∈ relevantFor allKeys notecardType, extractVersion k = some versionToUse) →
        ∃ u, findFirmwareUrl updateType allKeys notecardType versionToUse currentVersion =
          Except.ok (some u))) := by
  constructor
  · unfold findFirmwareUrl
    rw [findFirmwareUrlCore_eq _ _ _ _ _ hrel]
    rcases currentVersion with _ | c
    · dsimp only
      constructor
      · intro h
        rw [wrapFirmwareError_ok_iff] at h
        exact absurd h (selectionResult_ne_ok_none _ _ _ _)
      · rintro ⟨c, hc, -⟩
        exact Option.noConfusion hc
    · dsimp only
      by_cases hcond : "latest" = "latest" ∧ c ≠ "" ∧
          0 ≤ compareVersions c
            (scanKeys "latest" (relevantFor allKeys notecardType)).latestVersion
      · rw [if_pos hcond]
        constructor
        · intro _
          exact ⟨c, rfl, hcond.2.2⟩
        · intro _
          rfl
      · rw [if_neg hcond]
        constructor
        · intro h
          rw [wrapFirmwareError_ok_iff] at h
          exact absurd h (selectionResult_ne_ok_none _ _ _ _)
        · rintro ⟨c2, hc2, hge⟩
          obtain rfl := Option.some.inj hc2
          exact absurd ⟨rfl, hcur c rfl, hge⟩ hcond
  · intro hv
    refine ⟨?_, ?_, ?_⟩
    · unfold findFirmwareUrl
      rw [findFirmwareUrlCore_eq _ _ _ _ _ hrel]
      rcases currentVersion with _ | c
      · dsimp only
        intro h
        rw [wrapFirmwareError_ok_iff] at h
        exact selectionResult_ne_ok_none _ _ _ _ h
      · dsimp only
        rw [if_neg (fun hcond => hv hcond.1)]
        intro h
        rw [wrapFirmwareError_ok_iff] at h
        exact selectionResult_ne_ok_none _ _ _ _ h
    · unfold findFirmwareUrl
      rw [findFirmwareUrlCore_eq _ _ _ _ _ hrel, findFirmwareUrlCore_eq _ _ _ _ _ hrel]
      rcases currentVersion with _ | c
      · rfl
      · dsimp only
        rw [if_neg (fun hcond => hv hcond.1)]
    · intro hmatch
      have hsel : (scanKeys versionToUse (relevantFor allKeys notecardType)).selectedKey ≠
          none := by
        unfold scanKeys
        exact scanFold_specific_selected versionToUse hv _ _ (Or.inl hmatch)
      rcases ho : (scanKeys versionToUse (relevantFor allKeys notecardType)).selectedKey
        with _ | k
      · exact absurd ho hsel
      · refine ⟨firmwareHost ++ k, ?_⟩
        unfold findFirmwareUrl
        rw [findFirmwareUrlCore_eq _ _ _ _ _ hrel]
        rcases currentVersion with _ | c
        · dsimp only
          rw [selectionResult_of_selected _ _ _ _ k ho]
          rfl
        · dsimp only
          rw [if_neg (fun hcond => hv hcond.1)]
          rw [selectionResult_of_selected _ _ _ _ k ho]
          rfl

/-- Witness for C2: a selected artifact is reported up to date once the
current version reaches the tracked latest. -/
theorem resolve_upToDate_iff_witness :
    findFirmwareUrl "LTS" ["a-u5-1.2.3.4.bin"] "u5" "latest" (some "1.2.3.4") =
      Except.ok none :=
  ((resolve_upToDate_iff "LTS" ["a-u5-1.2.3.4.bin"] "u5" "9.9.9.9" (some "1.2.3.4")
      (by decide) (fun c hc => by cases hc; decide)).1).mpr
    ⟨"1.2.3.4", rfl, by decide⟩

/-- Claim C3: in the specific-version path the running tie-break is
asymmetric: a later BIN key of the requested version always takes over
the selection (in particular from an earlier DFU selection), while a
later non-BIN (DFU) key never displaces an existing BIN selection; both
listing orders therefore resolve to the BIN key. -/
theorem specific_tiebreak_asymmetric (versionToUse : String) (hv : versionToUse ≠ "latest")
    (st : ScanState) (key sel : String) (hsel : st.selectedKey = some sel) :
    (extractVersion key = some versionToUse → jsEndsWith sel ".dfu" = true →
      jsEndsWith key ".bin" = true →
      (scanStep versionToUse st key).selectedKey = some key) ∧
    (jsEndsWith sel ".bin" = true → jsEndsWith key ".dfu" = true →
      jsEndsWith key ".bin" = false →
      (scanStep versionToUse st key).selectedKey = some sel) ∧
    findFirmwareUrl "LTS" ["note-u5-1.2.3.4.dfu", "note-u5-1.2.3.4.bin"] "u5" "1.2.3.4" none =
      Except.ok (some "https://notecard-firmware.s3.amazonaws.com/note-u5-1.2.3.4.bin") ∧
    findFirmwareUrl "LTS" ["note-u5-1.2.3.4.bin", "note-u5-1.2.3.4.dfu"] "u5" "1.2.3.4" none =
      Except.ok (some "https://notecard-firmware.s3.amazonaws.com/note-u5-1.2.3.4.bin") := by
  refine ⟨?_, ?_, rfl, rfl⟩
  · intro hx _ hkbin
    simp only [scanStep, hx]
    rw [if_neg hv]
    simp only [if_true]
    rw [hsel]
    dsimp only
    rw [if_pos (Or.inr hkbin)]
  · intro _ _ hkbinf
    rcases hx : extractVersion key with _ | kv
    · rw [scanStep_extract_none _ _ _ hx]
      exact hsel
    · simp only [scanStep, hx]
      rw [if_neg hv]
      by_cases hkv : kv = versionToUse
      · rw [if_pos hkv, hsel]
        dsimp only
        rw [if_neg (by rintro (⟨-, hk⟩ | hk) <;> rw [hkbinf] at hk <;> cases hk)]
        exact hsel
      · rw [if_neg hkv]
        exact hsel

/-- Witness for C3 at concrete keys and scan state. -/
theorem specific_tiebreak_asymmetric_witness :
    (extractVersion "note-u5-1.2.3.4.bin" = some "1.2.3.4" →
      jsEndsWith "note-u5-9.9.9.9.dfu" ".dfu" = true →
      jsEndsWith "note-u5-1.2.3.4.bin" ".bin" = true →
      (scanStep "1.2.3.4"
          { selectedKey := some "note-u5-9.9.9.9.dfu", latestVersion := "0.0.0.0" }
          "note-u5-1.2.3.4.bin").selectedKey = some "note-u5-1.2.3.4.bin") ∧
    (jsEndsWith "note-u5-9.9.9.9.dfu" ".bin" = true →
      jsEndsWith "note-u5-1.2.3.4.bin" ".dfu" = true →
      jsEndsWith "note-u5-1.2.3.4.bin" ".bin" = false →
      (scanStep "1.2.3.4"
          { selectedKey := some "note-u5-9.9.9.9.dfu", latestVersion := "0.0.0.0" }
          "note-u5-1.2.3.4.bin").selectedKey = some "note-u5-9.9.9.9.dfu") ∧
    findFirmwareUrl "LTS" ["note-u5-1.2.3.4.dfu", "note-u5-1.2.3.4.bin"] "u5" "1.2.3.4" none =
      Except.ok (some "https://notecard-firmware.s3.amazonaws.com/note-u5-1.2.3.4.bin") ∧
    findFirmwareUrl "LTS" ["note-u5-1.2.3.4.bin", "note-u5-1.2.3.4.dfu"] "u5" "1.2.3.4" none =
      Except.ok (some "https://notecard-firmware.s3.amazonaws.com/note-u5-1.2.3.4.bin") :=
  specific_tiebreak_asymmetric "1.2.3.4" (by decide)
    { selectedKey := some "note-u5-9.9.9.9.dfu", latestVersion := "0.0.0.0" }
    "note-u5-1.2.3.4.bin" "note-u5-9.9.9.9.dfu" rfl

/-- Claim C5: with keys present but none containing the hardware-type
token, listing returns an empty sequence while resolution fails hard
with the no-firmware-for-this-hardware-type error. -/
theorem emptyFilter_list_vs_resolve (updateType : String) (allKeys : List String)
    (notecardType versionToUse : String) (currentVersion : Option String)
    (hk : allKeys ≠ []) (hrel : relevantFor allKeys notecardType = []) :
    listAvailableFirmwareVersions updateType allKeys notecardType = [] ∧
    findFirmwareUrl updateType allKeys notecardType versionToUse currentVersion =
      Except.error ("Could not find firmware: " ++
        ("No firmware files found for Notecard type \x27" ++ notecardType ++
          "\x27 with prefix \x27" ++ updateType ++ "\x27.")) := by
  constructor
  · unfold listAvailableFirmwareVersions
    rw [if_neg hk, if_pos hrel]
  · unfold findFirmwareUrl findFirmwareUrlCore
    rw [if_neg hk, if_pos hrel]
    rfl

/-- Witness for C5 at a concrete listing with no matching hardware token. -/
theorem emptyFilter_list_vs_resolve_witness :
    listAvailableFirmwareVersions "LTS" ["foo"] "s3" = [] ∧
    findFirmwareUrl "LTS" ["foo"] "s3" "1.2.3.4" none =
      Except.error "Could not find firmware: No firmware files found for Notecard type \x27s3\x27 with prefix \x27LTS\x27." :=
  emptyFilter_list_vs_resolve "LTS" ["foo"] "s3" "1.2.3.4" none (by decide) (by decide)

/-- Claim C6: when a specific version is requested and no filtered key
extracts to it, resolution fails with the version-not-found error whose
message carries the joined enumeration of exactly the versions
extractable from the filtered keys. -/
theorem versionNotFound_enumerates (updateType : String) (allKeys : List String)
    (notecardType versionToUse : String) (currentVersion : Option String)
    (hv : versionToUse ≠ "latest") (hrel : relevantFor allKeys notecardType ≠ [])
    (hno : ∀ k ∈ relevantFor allKeys notecardType, ∀ kv, extractVersion k = some kv →
      kv ≠ versionToUse) :
    findFirmwareUrl updateType allKeys notecardType versionToUse currentVersion =
      Except.error ("Could not find firmware: " ++
        ("Firmware version \x27" ++ versionToUse ++ "\x27 not found for Notecard type \x27" ++
          notecardType ++ "\x27. Available: " ++
          availableJoin (extractAvailableVersions (relevantFor allKeys notecardType)))) ∧
    ∀ x, x ∈ extractAvailableVersions (relevantFor allKeys notecardType) ↔
      ∃ k ∈ relevantFor allKeys notecardType, extractVersion k = some x := by
  have hsel : (scanKeys versionToUse (relevantFor allKeys notecardType)) =
      { selectedKey := none, latestVersion := "0.0.0.0" } := by
    unfold scanKeys
    exact scanFold_specific_nomatch versionToUse hv _ _ hno
  constructor
  · unfold findFirmwareUrl
    rw [findFirmwareUrlCore_eq _ _ _ _ _ hrel]
    rcases currentVersion with _ | c
    · dsimp only
      rw [selectionResult_specific_none _ _ _ _ hv (by rw [hsel])]
      rfl
    · dsimp only
      rw [if_neg (fun hcond => hv hcond.1)]
      rw [selectionResult_specific_none _ _ _ _ hv (by rw [hsel])]
      rfl
  · intro x
    exact mem_extractAvailableVersions _ x

/-- Witness for C6 at a concrete listing. -/
theorem versionNotFound_enumerates_witness :
    findFirmwareUrl "LTS" ["a-u5-1.2.3.4.bin"] "u5" "9.9.9.9" none =
      Except.error "Could not find firmware: Firmware version \x279.9.9.9\x27 not found for Notecard type \x27u5\x27. Available: 1.2.3.4" :=
  (versionNotFound_enumerates "LTS" ["a-u5-1.2.3.4.bin"] "u5" "9.9.9.9" none (by decide)
    (by decide)
    (by
      intro k hk kv hkv
      have hr : relevantFor ["a-u5-1.2.3.4.bin"] "u5" = ["a-u5-1.2.3.4.bin"] := rfl
      rw [hr, List.mem_singleton] at hk
      subst hk
      have he : extractVersion "a-u5-1.2.3.4.bin" = some "1.2.3.4" := rfl
      rw [he] at hkv
      cases hkv
      decide)).1

/-- Claim C10: if keys survive the hardware filter but none yields an
extractable version, the tracked latest stays at the 0.0.0.0 sentinel,
any genuine current version compares at least that sentinel, and a
`latest` request with a current version returns the up-to-date outcome,
so the no-valid-versions failure is unreachable then. -/
theorem noExtractable_upToDate (updateType : String) (allKeys : List String)
    (notecardType c : String) (hc : c ≠ "") (hrel : relevantFor allKeys notecardType ≠ [])
    (hnone : ∀ k ∈ relevantFor allKeys notecardType, extractVersion k = none) :
    (scanKeys "latest" (relevantFor allKeys notecardType)).latestVersion = "0.0.0.0" ∧
    0 ≤ compareVersions c "0.0.0.0" ∧
    findFirmwareUrl updateType allKeys notecardType "latest" (some c) = Except.ok none := by
  have hscan : scanKeys "latest" (relevantFor allKeys notecardType) =
      { selectedKey := none, latestVersion := "0.0.0.0" } := by
    unfold scanKeys
    exact scanFold_id_of_none "latest" _ _ hnone
  refine ⟨by rw [hscan], compareVersions_sentinel_nonneg c, ?_⟩
  unfold findFirmwareUrl
  rw [findFirmwareUrlCore_eq _ _ _ _ _ hrel, hscan]
  dsimp only
  rw [if_pos ⟨rfl, hc, compareVersions_sentinel_nonneg c⟩]
  rfl

/-- Witness for C10 at a concrete listing whose only relevant key has no
extractable version. -/
theorem noExtractable_upToDate_witness :
    0 ≤ compareVersions "1.0" "0.0.0.0" ∧
    findFirmwareUrl "LTS" ["a-u5-nov"] "u5" "latest" (some "1.0") = Except.ok none :=
  ⟨(noExtractable_upToDate "LTS" ["a-u5-nov"] "u5" "1.0" (by decide) (by decide)
      (by decide)).2.1,
    (noExtractable_upToDate "LTS" ["a-u5-nov"] "u5" "1.0" (by decide) (by decide)
      (by decide)).2.2⟩

end Notecard
